import Mathlib

/-!
Shallow embedding of the Pro-Lite PDF viewer (src/pdf_viewer.py) and proofs
about its selection, layout, zoom, eraser, rendering and save logic.

Coordinates are modelled as exact rationals (Python floats carry exact
decimal literals here; no rounding behaviour is relevant to the claims).
Screen (widget) coordinates are integers, as in Qt's `QPoint`/`QRect`.
-/

namespace PDFViewer

/-- A point (`fitz.Point` / `QPointF`): page-local or scene coordinates. -/
structure Point where
  x : ℚ
  y : ℚ
deriving DecidableEq, Repr

/-- An axis-aligned rectangle (`fitz.Rect` / `QRectF`): top-left `(x0, y0)`,
bottom-right `(x1, y1)`. -/
structure Rect where
  x0 : ℚ
  y0 : ℚ
  x1 : ℚ
  y1 : ℚ
deriving DecidableEq, Repr

/-- `fitz.Rect.contains(point)` (also `QRectF.contains`): closed containment. -/
def Rect.containsPoint (r : Rect) (p : Point) : Bool :=
  decide (r.x0 ≤ p.x) && decide (p.x ≤ r.x1) && decide (r.y0 ≤ p.y) && decide (p.y ≤ r.y1)

/-- A text quad (`fitz.Quad`): four corners, upper-left, upper-right,
lower-right, lower-left, in page-local units. -/
structure Quad where
  ul : Point
  ur : Point
  lr : Point
  ll : Point
deriving DecidableEq, Repr

/-- `fitz.Quad.rect`: the smallest axis-aligned rectangle containing the four
corners. -/
def Quad.rect (q : Quad) : Rect :=
  { x0 := min (min q.ul.x q.ur.x) (min q.lr.x q.ll.x)
    y0 := min (min q.ul.y q.ur.y) (min q.lr.y q.ll.y)
    x1 := max (max q.ul.x q.ur.x) (max q.lr.x q.ll.x)
    y1 := max (max q.ul.y q.ur.y) (max q.lr.y q.ll.y) }

/-- Squared Euclidean distance from the query point `(x, y)` to the quad's
center, as computed in `find_closest_quad_index` (pdf_viewer.py:353-354):
`cx, cy = (q.ul.x + q.lr.x)/2, (q.ul.y + q.lr.y)/2; dist = (cx-x)**2 + (cy-y)**2`. -/
def Quad.centerDist (q : Quad) (x y : ℚ) : ℚ :=
  ((q.ul.x + q.lr.x) / 2 - x) ^ 2 + ((q.ul.y + q.lr.y) / 2 - y) ^ 2

/-- `dist < best_dist`, where `none` models the initial `float('inf')`
(every finite distance beats it). -/
def betterDist (dist : ℚ) : Option ℚ → Bool
  | none => true
  | some b => decide (dist < b)

/-- The scan loop of `PDFTab.find_closest_quad_index` (pdf_viewer.py:351-356):
`i` is the index of the head of `l` in the original list, `best`/`bidx` are
the `best_dist`/`best_idx` accumulators. A quad whose bounding rectangle
contains the point is returned immediately; otherwise the index of the
strictly smallest center distance seen so far is tracked. -/
def findClosestAux (x y : ℚ) : List Quad → Nat → Option ℚ → Int → Int
  | [], _, _, bidx => bidx
  | q :: rest, i, best, bidx =>
    if q.rect.containsPoint ⟨x, y⟩ then (i : Int)
    else
      let dist := q.centerDist x y
      if betterDist dist best then findClosestAux x y rest (i + 1) (some dist) (i : Int)
      else findClosestAux x y rest (i + 1) best bidx

/-- `PDFTab.find_closest_quad_index` (pdf_viewer.py:347-356). Returns `-1`
for an empty quad list (`if not self.page_quads_cache: return -1`), else
runs the scan starting from `best_dist = inf`, `best_idx = -1`. -/
def find_closest_quad_index (quads : List Quad) (x y : ℚ) : Int :=
  if quads.isEmpty then -1 else findClosestAux x y quads 0 none (-1)

/-- A concrete 10×10 quad at the page origin, used by witnesses. -/
def quadW : Quad := ⟨⟨0, 0⟩, ⟨10, 0⟩, ⟨10, 10⟩, ⟨0, 10⟩⟩

/-- `PDFTab.zoom_view` (pdf_viewer.py:184-188): `self.scale += change`, then
clamp below at 0.2, then clamp above at 5.0. -/
def zoom_view (scale change : ℚ) : ℚ :=
  let s1 := scale + change
  let s2 := if s1 < 0.2 then 0.2 else s1
  if s2 > 5.0 then 5.0 else s2

/-- `PDFTab.fit_width` (pdf_viewer.py:190-196): `view_w = self.view.width() - 30`;
if the first page has positive width, `self.scale = view_w / page_w_points`
with no clamping; otherwise the scale is left unchanged. -/
def fit_width (scale view_width page_w_points : ℚ) : ℚ :=
  if page_w_points > 0 then (view_width - 30) / page_w_points else scale

/-- The single-mode placement loop of `PDFTab.render_pages`
(pdf_viewer.py:157-171): laid-out item sizes (width, height) are stacked
vertically from the running `y_offset`, separated by the padding 20, each
centered horizontally when narrower than the view width `view_w`. -/
def render_pages_single (view_w : ℚ) : List (ℚ × ℚ) → ℚ → List Point
  | [], _ => []
  | (w, h) :: rest, y =>
    ⟨if w < view_w then (view_w - w) / 2 else 0, y⟩ ::
      render_pages_single view_w rest (y + h + 20)

/-- The dual-mode placement loop of `PDFTab.render_pages`
(pdf_viewer.py:172-179): `x_offset` stays 0, so an even-indexed page starts
a row at x = 0; the following odd page sits at `next_x = width(even) + 20`;
`y_offset` then advances by `max(item_h, prev_h) + padding`. A final
unpaired page is placed at x = 0 and advances nothing after it. -/
def render_pages_dual : List (ℚ × ℚ) → ℚ → List Point
  | [], _ => []
  | [_], y => [⟨0, y⟩]
  | (w1, h1) :: (_, h2) :: rest, y =>
    ⟨0, y⟩ :: ⟨w1 + 20, y⟩ :: render_pages_dual rest (y + max h2 h1 + 20)

/-- `item.sceneBoundingRect()` for each laid-out page: position plus size. -/
def itemRects (sizes : List (ℚ × ℚ)) (pos : List Point) : List Rect :=
  List.zipWith (fun s p => ⟨p.x, p.y, p.x + s.1, p.y + s.2⟩) sizes pos

/-- The scan loop of `PDFTab.check_current_page` (pdf_viewer.py:205-213):
walk the laid-out page rectangles in order (`page_num` = position, starting
at `i`); the first whose vertical span contains `center_y` is reported as
`"page_num + 1 / total"`; if none straddles the center, nothing is emitted. -/
def check_current_page_from (total : Nat) (center_y : ℚ) : List Rect → Nat → Option String
  | [], _ => none
  | r :: rest, i =>
    if r.y0 ≤ center_y ∧ center_y ≤ r.y1 then
      some (toString (i + 1) ++ " / " ++ toString total)
    else check_current_page_from total center_y rest (i + 1)

/-- `PDFTab.check_current_page` (pdf_viewer.py:198-217) over the laid-out
page rectangles, the page count and the scene y-coordinate of the viewport
center. -/
def check_current_page (items : List Rect) (total : Nat) (center_y : ℚ) : Option String :=
  check_current_page_from total center_y items 0

/-- The two-page single-mode document of the C5 counterexample: two
100 × 100 pages at scale 1. -/
def sizesC5 : List (ℚ × ℚ) := [(100, 100), (100, 100)]

/-- The three-page (odd N) document used by the C6 witness. -/
def sizesW : List (ℚ × ℚ) := [(100, 200), (80, 100), (50, 50)]

/-- A PDF annotation as the eraser sees it: its rectangle (`annot.rect`) and
its type code (`annot.type[0]`; 8 is a highlight). -/
structure Annot where
  rect : Rect
  subtype : Nat
deriving DecidableEq, Repr

/-- The hit test of `PDFTab.process_eraser` (pdf_viewer.py:339):
`annot.rect.contains(point) and annot.type[0] == 8`. -/
def eraserHit (p : Point) (a : Annot) : Bool :=
  a.rect.containsPoint p && decide (a.subtype = 8)

/-- The annotation walk of `PDFTab.process_eraser` (pdf_viewer.py:337-343):
follow the `first_annot → next` chain in insertion (z-) order and delete
the first annotation hit by `eraserHit`, stopping there; remove nothing
when no annotation is hit. -/
def process_eraser_scan (annots : List Annot) (p : Point) : List Annot :=
  match annots with
  | [] => []
  | a :: rest => if eraserHit p a then rest else a :: process_eraser_scan rest p

/-- A page as the eraser sees it: scene bounding rectangle, scene position
and its annotation list in insertion order. -/
structure EraserPage where
  sceneRect : Rect
  scenePos : Point
  annots : List Annot
deriving DecidableEq, Repr

/-- The page-local press point of the eraser (pdf_viewer.py:335-336):
`mapFromScene` subtracts the page's scene position, then both coordinates
are divided by the scale. -/
def eraserLocalPoint (sp : Point) (pg : EraserPage) (scale : ℚ) : Point :=
  ⟨(sp.x - pg.scenePos.x) / scale, (sp.y - pg.scenePos.y) / scale⟩

/-- `PDFTab.process_eraser` (pdf_viewer.py:329-345): walk the pages in order;
on the first page whose scene rectangle contains the press point, map the
point to page-local units (`mapFromScene`, then divide by the scale), run
the annotation walk on that page only, and stop. -/
def process_eraser (pages : List EraserPage) (sp : Point) (scale : ℚ) : List EraserPage :=
  match pages with
  | [] => []
  | pg :: rest =>
    if pg.sceneRect.containsPoint sp then
      { pg with annots := process_eraser_scan pg.annots (eraserLocalPoint sp pg scale) } :: rest
    else pg :: process_eraser rest sp scale

/-- A highlight annotation over [0,50] × [0,20], hit by the witness press. -/
def annotW : Annot := ⟨⟨0, 0, 50, 20⟩, 8⟩

/-- A non-highlight annotation elsewhere on the page, not hit. -/
def annotW2 : Annot := ⟨⟨60, 0, 90, 20⟩, 5⟩

/-- An element of `selected_quads` in `PDFTab.copy_selection`: normally a
`fitz.Quad`; after a box selection with no resolvable quads, a single
`fitz.Rect` (pdf_viewer.py:393). -/
inductive SelItem
  | quad (q : Quad)
  | rect (r : Rect)
deriving DecidableEq, Repr

/-- Python `str.strip()`: surrounding whitespace removed. -/
def pyStrip (s : String) : String := s.trim

/-- The accumulation loop of `PDFTab.copy_selection` (pdf_viewer.py:417-419):
each quad contributes `get_text("text", clip=q.rect)` in index order;
`getText` is the engine's clipped extraction, `none` modelling a raised
exception; any per-element exception (`except: pass`, including the `.rect`
attribute failure on a stray `Rect` element) contributes nothing. -/
def copy_quad_texts (getText : Rect → Option String) : List SelItem → String
  | [] => ""
  | .quad q :: rest => ((getText q.rect).getD "") ++ copy_quad_texts getText rest
  | .rect _ :: rest => copy_quad_texts getText rest

/-- `PDFTab.copy_selection` (pdf_viewer.py:410-422): with an empty selection
or no start page the guard returns without touching the clipboard (`none`);
when the first element is a `Rect` (box fallback) the whole rectangle's
text is extracted (an engine exception aborts the write); otherwise the
per-quad texts are concatenated in index order. The written text is
stripped of surrounding whitespace. -/
def copy_selection (sel : List SelItem) (hasStartPage : Bool)
    (getText : Rect → Option String) : Option String :=
  match sel, hasStartPage with
  | [], _ => none
  | _, false => none
  | .rect r :: _, true => (getText r).map pyStrip
  | s@(.quad _ :: _), true => some (pyStrip (copy_quad_texts getText s))

/-- The text one selection element contributes, as the claim words it. -/
def selItemText (getText : Rect → Option String) : SelItem → String
  | .quad q => (getText q.rect).getD ""
  | .rect _ => ""

/-- The engine's pixel buffer (`fitz.Pixmap`): dimensions, stride, alpha
flag, raw samples. -/
structure Pixmap where
  width : Nat
  height : Nat
  stride : Nat
  alpha : Bool
  samples : List Nat
deriving DecidableEq, Repr

/-- The bitmap a page item displays: the `QImage`'s format choice (RGBA when
the pixmap has alpha), dimensions, samples, and the device-pixel-ratio
tag set by `setDevicePixelRatio`. -/
structure Bitmap where
  rgba : Bool
  width : Nat
  height : Nat
  samples : List Nat
  dpr : ℚ
deriving DecidableEq, Repr

/-- `PDFPageItem.update_render` (pdf_viewer.py:59-78) on one page: `pix` is
the engine's rasterization outcome, `Except` modelling a raised exception —
caught and logged by the surrounding handler, leaving the prior bitmap;
empty `pix.samples` returns without touching the existing bitmap
(`if not pix.samples: return`); otherwise the new bitmap replaces the
prior one. -/
def update_render (prior : Option Bitmap) (dpr : ℚ)
    (pix : Except String Pixmap) : Option Bitmap :=
  match pix with
  | .error _ => prior
  | .ok px =>
    if px.samples.isEmpty then prior
    else some ⟨px.alpha, px.width, px.height, px.samples, dpr⟩

/-- The per-page render loop of `PDFTab.render_pages` (pdf_viewer.py:160-162)
restricted to bitmap state: each page pairs its prior bitmap with its own
engine outcome and runs `update_render` on them alone. -/
def render_all (dpr : ℚ) (pages : List (Option Bitmap × Except String Pixmap)) :
    List (Option Bitmap) :=
  pages.map fun pg => update_render pg.1 dpr pg.2

/-- A concrete prior bitmap for the C9 witness. -/
def bmpW : Bitmap := ⟨false, 4, 4, [1, 2, 3], 1⟩

/-- The one-page render input of the C9 witness: a prior bitmap paired with
a raised engine exception. -/
def pagesW : List (Option Bitmap × Except String Pixmap) := [(some bmpW, .error "boom")]

/-- The save actions reachable from `ProPDFViewer.save_overwrite`. -/
inductive SaveAction
  | saveAs
  | saveIncr
deriving DecidableEq, Repr

/-- `ProPDFViewer.save_overwrite` (pdf_viewer.py:712-723): redirect to
Save-Copy (`save_as_new`) when `current_path` is Python-falsy (`None` or
the empty string) or does not name an existing regular file
(`os.path.isfile`); only otherwise attempt the in-place incremental save
(`doc.saveIncr()`). `isfile` is the filesystem oracle. -/
def save_overwrite (current_path : Option String) (isfile : String → Bool) : SaveAction :=
  match current_path with
  | none => .saveAs
  | some p => if p = "" then .saveAs else if isfile p then .saveIncr else .saveAs

/-- `QRect(topLeft, bottomRight).normalized()` (Qt): the stored corners give
raw width `x2 - x1 + 1`; `normalized` swaps the x-corners only when
`x2 < x1 - 1` (and likewise for y), so the resulting width is
`x1 - x2 + 1` in that case and `x2 - x1 + 1` otherwise. -/
def qrectNormWidth (a b : Int) : Int :=
  if b < a - 1 then a - b + 1 else b - a + 1

/-- An integer screen rectangle (`QRect`): position and size. Width/height
may be negative for an invalid rectangle (`QRect(origin, QSize())`). -/
structure QRectI where
  x : Int
  y : Int
  w : Int
  h : Int
deriving DecidableEq, Repr

/-- `QRect(o, p).normalized()` for two corner points. -/
def qrectNormalized (o p : Int × Int) : QRectI :=
  { x := if p.1 < o.1 - 1 then p.1 else o.1
    y := if p.2 < o.2 - 1 then p.2 else o.2
    w := qrectNormWidth o.1 p.1
    h := qrectNormWidth o.2 p.2 }

/-- The per-gesture state of a `PDFTab` (pdf_viewer.py:93-137): the fields
the selection and highlight logic reads and writes. `origin = (0, 0)` plays
the role of the null `QPoint()`. `pageAnnots` holds each page's annotation
list in insertion order. -/
structure TabState where
  origin : Int × Int
  start_selection_page : Option Nat
  page_quads_cache : List Quad
  sel_start_index : Int
  sel_end_index : Int
  selected_quads : List Quad
  use_linear_selection : Bool
  rubberband : QRectI
  rubberband_visible : Bool
  pageAnnots : List (List Annot)
deriving DecidableEq, Repr

/-- One laid-out page as the gesture handlers see it: `item.pos()` and the
item's size, so `sceneBoundingRect` is the rectangle of that size at that
position and `mapFromScene` subtracts the position. -/
structure PageItem where
  scenePos : Point
  width : ℚ
  height : ℚ
deriving DecidableEq, Repr

/-- `item.sceneBoundingRect()`. -/
def PageItem.sceneRect (it : PageItem) : Rect :=
  ⟨it.scenePos.x, it.scenePos.y, it.scenePos.x + it.width, it.scenePos.y + it.height⟩

/-- The environment of a gesture: the laid-out pages, the engine's quad
extraction (`page_obj.get_text("quads")`, `none` modelling a raised
exception), the clipped quad extraction used by box highlights, the tab's
scale, and the view transform `view.mapToScene` from viewport (screen)
coordinates to scene coordinates. -/
structure GestureEnv where
  pages : List PageItem
  getQuads : Nat → Option (List Quad)
  getQuadsClip : Nat → Rect → Option (List Quad)
  scale : ℚ
  toScene : Int × Int → Point

/-- The page-under-pointer loop shared by press and eraser handlers
(pdf_viewer.py:273-276): the first page whose scene bounding rectangle
contains the scene point, scanning from index `i`. -/
def findPageAtFrom (pages : List PageItem) (sp : Point) (i : Nat) : Option Nat :=
  match pages with
  | [] => none
  | it :: rest =>
    if it.sceneRect.containsPoint sp then some i else findPageAtFrom rest sp (i + 1)

/-- The first page under the given scene point. -/
def findPageAt (pages : List PageItem) (sp : Point) : Option Nat :=
  findPageAtFrom pages sp 0

/-- A default page item for out-of-range lookups (never reached along the
guarded paths). -/
def pageItemD : PageItem := ⟨⟨0, 0⟩, 0, 0⟩

/-- `PDFTab.handle_selection_press` (pdf_viewer.py:265-291): reset the
gesture state; find the page under the pointer; fetch its quads (an engine
exception leaves box mode); with a non-empty quad list enter linear mode
and record the closest-quad start index at the page-local, scale-divided
position; otherwise show the rubber band as `QRect(origin, QSize())`. -/
def handle_selection_press (env : GestureEnv) (pos : Int × Int) (s : TabState) : TabState :=
  let s0 := { s with origin := pos, selected_quads := [], page_quads_cache := [],
                     use_linear_selection := false }
  let scene_pos := env.toScene pos
  match findPageAt env.pages scene_pos with
  | none => s0
  | some i =>
    let s1 := { s0 with start_selection_page := some i }
    let s2 :=
      match env.getQuads i with
      | none => s1
      | some qs =>
        if qs.isEmpty then { s1 with page_quads_cache := qs }
        else
          let it := env.pages.getD i pageItemD
          let lx := scene_pos.x - it.scenePos.x
          let ly := scene_pos.y - it.scenePos.y
          { s1 with page_quads_cache := qs, use_linear_selection := true,
                    sel_start_index :=
                      find_closest_quad_index qs (lx / env.scale) (ly / env.scale) }
    if s2.use_linear_selection then s2
    else { s2 with rubberband := ⟨pos.1, pos.2, -1, -1⟩, rubberband_visible := true }

/-- Python list slice `l[a : b]` for `0 ≤ a ≤ b` (the only case reached:
both selection indices are valid quad indices). -/
def pySlice (l : List Quad) (a b : Int) : List Quad :=
  (l.take b.toNat).drop a.toNat

/-- `PDFTab.handle_selection_move` (pdf_viewer.py:293-309): only act when the
origin is not the null point and a start page exists. In linear mode with a
cached quad list, recompute the closest-quad end index and, when both
indices are valid, slice the cache between the normalized indices
inclusive; in box mode update the rubber band to the normalized rectangle
from the origin to the pointer. (The stale-item `RuntimeError` branch is
not modelled: the model has no destroyed pages.) -/
def handle_selection_move (env : GestureEnv) (s : TabState) (pos : Int × Int) : TabState :=
  match s.start_selection_page with
  | none => s
  | some i =>
    if s.origin = (0, 0) then s
    else if s.use_linear_selection ∧ ¬s.page_quads_cache.isEmpty then
      let scene_pos := env.toScene pos
      let it := env.pages.getD i pageItemD
      let lx := scene_pos.x - it.scenePos.x
      let ly := scene_pos.y - it.scenePos.y
      let s1 := { s with sel_end_index :=
        find_closest_quad_index s.page_quads_cache (lx / env.scale) (ly / env.scale) }
      if s1.sel_start_index ≠ -1 ∧ s1.sel_end_index ≠ -1 then
        { s1 with selected_quads := (pySlice s1.page_quads_cache
            (min s1.sel_start_index s1.sel_end_index)
            (max s1.sel_start_index s1.sel_end_index + 1)) }
      else s1
    else { s with rubberband := qrectNormalized s.origin pos }

/-- `fitz.Rect` union (`|`): the bounding rectangle of two rectangles. -/
def rectUnion (a b : Rect) : Rect :=
  ⟨min a.x0 b.x0, min a.y0 b.y0, max a.x1 b.x1, max a.y1 b.y1⟩

/-- The rectangle of a highlight committed from a quad list
(`page.add_highlight_annot(quads)` covers the quads). -/
def quadsRect : List Quad → Rect
  | [] => ⟨0, 0, 0, 0⟩
  | [q] => q.rect
  | q :: rest => rectUnion q.rect (quadsRect rest)

/-- Append a new annotation to page `i`'s list (new annotations come last in
insertion order). -/
def commitAnnot (annots : List (List Annot)) (i : Nat) (a : Annot) : List (List Annot) :=
  annots.set i (annots.getD i [] ++ [a])

/-- `PDFTab.highlight_selection` (pdf_viewer.py:424-433), state part: return
unchanged on an empty selection or missing start page; otherwise commit a
highlight annotation built from the selected quads to the start page and
clear the selection. -/
def highlight_selection (s : TabState) : TabState :=
  match s.start_selection_page with
  | none => s
  | some i =>
    if s.selected_quads.isEmpty then s
    else { s with
      pageAnnots := commitAnnot s.pageAnnots i ⟨quadsRect s.selected_quads, 8⟩,
      selected_quads := [] }

/-- `fitz.Rect` intersection, as `QRectF.intersected`. -/
def rectIntersect (a b : Rect) : Rect :=
  ⟨max a.x0 b.x0, max a.y0 b.y0, min a.x1 b.x1, min a.y1 b.y1⟩

/-- `view.mapToScene(rect).boundingRect()`: the bounding box of the four
mapped corners of the screen rectangle. -/
def screenRectToScene (toScene : Int × Int → Point) (r : QRectI) : Rect :=
  let p1 := toScene (r.x, r.y)
  let p2 := toScene (r.x + r.w, r.y)
  let p3 := toScene (r.x + r.w, r.y + r.h)
  let p4 := toScene (r.x, r.y + r.h)
  ⟨min (min p1.x p2.x) (min p3.x p4.x), min (min p1.y p2.y) (min p3.y p4.y),
   max (max p1.x p2.x) (max p3.x p4.x), max (max p1.y p2.y) (max p3.y p4.y)⟩

/-- `PDFTab.process_box_highlight` (pdf_viewer.py:371-384): with no start
page, return; else map the rubber band to the scene, intersect it with the
page, translate to page-local units and divide by the scale; clip the
engine's quads to that rectangle (an exception leaves `None`), and commit a
highlight from the quads — or from the raw rectangle when no quads
resolved. -/
def process_box_highlight (env : GestureEnv) (rect_screen : QRectI) (s : TabState) :
    TabState :=
  match s.start_selection_page with
  | none => s
  | some i =>
    let it := env.pages.getD i pageItemD
    let rect_scene := screenRectToScene env.toScene rect_screen
    let inter := rectIntersect rect_scene it.sceneRect
    let pdf_rect : Rect :=
      ⟨(inter.x0 - it.scenePos.x) / env.scale, (inter.y0 - it.scenePos.y) / env.scale,
       (inter.x1 - it.scenePos.x) / env.scale, (inter.y1 - it.scenePos.y) / env.scale⟩
    let quads := (env.getQuadsClip i pdf_rect).getD []
    let a : Annot := if quads.isEmpty then ⟨pdf_rect, 8⟩ else ⟨quadsRect quads, 8⟩
    { s with pageAnnots := commitAnnot s.pageAnnots i a }

/-- `PDFTab.handle_selection_release` (pdf_viewer.py:311-327) with
`tool_mode == "highlight"`: commit a non-empty linear selection via
`highlight_selection`; otherwise commit the rubber band via
`process_box_highlight` only when its geometry is wider than 5 screen
units; then hide the rubber band, null the origin and clear the start page.
(In the `select` branch the release only opens a context menu and commits
no annotation during the gesture.) -/
def handle_selection_release_highlight (env : GestureEnv) (s : TabState) : TabState :=
  let s1 :=
    if s.use_linear_selection ∧ ¬s.selected_quads.isEmpty then highlight_selection s
    else if s.rubberband.w > 5 then process_box_highlight env s.rubberband s
    else s
  { s1 with rubberband_visible := false, origin := (0, 0), start_selection_page := none }

/-- A full press - move* - release gesture with the Highlight tool. The
release event's position is not read by the highlight branch. -/
def runHighlightGesture (env : GestureEnv) (p0 : Int × Int) (moves : List (Int × Int))
    (s : TabState) : TabState :=
  handle_selection_release_highlight env
    (moves.foldl (handle_selection_move env) (handle_selection_press env p0 s))

/-- A fresh tab's gesture state (pdf_viewer.py:102-108, 130-137) with
`numPages` pages, each starting with no annotations. A fresh hidden
`QRubberBand`'s geometry is toolkit-defined; the concrete runs here use the
zero rectangle (the theorems below never read it before it is first set). -/
def initState (numPages : Nat) : TabState :=
  { origin := (0, 0), start_selection_page := none, page_quads_cache := []
    sel_start_index := -1, sel_end_index := -1, selected_quads := []
    use_linear_selection := false, rubberband := ⟨0, 0, 0, 0⟩
    rubberband_visible := false, pageAnnots := List.replicate numPages [] }

/-- A single 200 × 200 text quad covering the page of the C2 counterexample. -/
def quadC2 : Quad := ⟨⟨0, 0⟩, ⟨200, 0⟩, ⟨200, 200⟩, ⟨0, 200⟩⟩

/-- The C2 counterexample document: one 200 × 200 page at the scene origin,
scale 1, identity view transform, and the engine resolving the single quad
`quadC2` — a page with selectable text. -/
def envC2 : GestureEnv :=
  { pages := [⟨⟨0, 0⟩, 200, 200⟩]
    getQuads := fun _ => some [quadC2]
    getQuadsClip := fun _ _ => some []
    scale := 1
    toScene := fun p => ⟨(p.1 : ℚ), (p.2 : ℚ)⟩ }

/-- The invariant carried from the press through every move of a box-mode
Highlight gesture: linear mode off, empty quad selection, annotations
untouched, origin at the press point, and either no start page or a rubber
band no wider than 5. -/
def BoxGestureInv (s0 : TabState) (p0 : Int × Int) (s : TabState) : Prop :=
  s.use_linear_selection = false ∧ s.selected_quads = [] ∧
  s.pageAnnots = s0.pageAnnots ∧ s.origin = p0 ∧
  (s.start_selection_page = none ∨ s.rubberband.w ≤ 5)

/-- The C2 witness document: one page, the engine resolving no quads. -/
def envC2b : GestureEnv :=
  { pages := [⟨⟨0, 0⟩, 200, 200⟩]
    getQuads := fun _ => some []
    getQuadsClip := fun _ _ => some []
    scale := 1
    toScene := fun p => ⟨(p.1 : ℚ), (p.2 : ℚ)⟩ }

/-- If some quad in `l` contains the query point, the scan returns the
index (relative to `i`) of a containing quad, whatever the accumulators. -/
theorem findClosestAux_of_contains (x y : ℚ) (l : List Quad) :
    ∀ (i : Nat) (best : Option ℚ) (bidx : Int),
      (∃ q ∈ l, q.rect.containsPoint ⟨x, y⟩ = true) →
      ∃ k : Fin l.length,
        findClosestAux x y l i best bidx = ((i : Int) + k.val) ∧
        (l.get k).rect.containsPoint ⟨x, y⟩ = true := by
  induction l with
  | nil =>
    intro i best bidx hex
    obtain ⟨q, hq, _⟩ := hex
    exact absurd hq (List.not_mem_nil q)
  | cons q rest ih =>
    intro i best bidx hex
    by_cases hc : q.rect.containsPoint ⟨x, y⟩ = true
    · exact ⟨⟨0, Nat.succ_pos _⟩, by simp [findClosestAux, hc], hc⟩
    · obtain ⟨q0, hq0, hq0c⟩ := hex
      have hq0r : q0 ∈ rest := by
        rcases List.mem_cons.mp hq0 with h | h
        · exact absurd (h ▸ hq0c) hc
        · exact h
      have hstep : findClosestAux x y (q :: rest) i best bidx =
          if betterDist (q.centerDist x y) best then
            findClosestAux x y rest (i + 1) (some (q.centerDist x y)) (i : Int)
          else findClosestAux x y rest (i + 1) best bidx := by
        simp [findClosestAux, hc]
      by_cases hb : betterDist (q.centerDist x y) best = true
      · obtain ⟨k, hk, hkc⟩ := ih (i + 1) (some (q.centerDist x y)) (i : Int) ⟨q0, hq0r, hq0c⟩
        refine ⟨⟨k.val + 1, Nat.succ_lt_succ k.isLt⟩, ?_, ?_⟩
        · rw [hstep, if_pos hb, hk]; push_cast; ring
        · simpa using hkc
      · obtain ⟨k, hk, hkc⟩ := ih (i + 1) best bidx ⟨q0, hq0r, hq0c⟩
        refine ⟨⟨k.val + 1, Nat.succ_lt_succ k.isLt⟩, ?_, ?_⟩
        · rw [hstep, if_neg hb, hk]; push_cast; ring
        · simpa using hkc

/-- If no quad in `l` contains the query point, the scan either keeps the
incoming best index `bidx` (and the incoming best distance `b` is a lower
bound for all of `l`), or returns the index of a quad strictly beating `b`
and minimal over `l`. -/
theorem findClosestAux_of_not_contains (x y : ℚ) (l : List Quad) :
    ∀ (i : Nat) (b : ℚ) (bidx : Int),
      (∀ q ∈ l, ¬(q.rect.containsPoint ⟨x, y⟩ = true)) →
      (findClosestAux x y l i (some b) bidx = bidx ∧
        ∀ q ∈ l, b ≤ q.centerDist x y) ∨
      (∃ k : Fin l.length,
        findClosestAux x y l i (some b) bidx = ((i : Int) + k.val) ∧
        (l.get k).centerDist x y < b ∧
        ∀ q ∈ l, (l.get k).centerDist x y ≤ q.centerDist x y) := by
  induction l with
  | nil =>
    intro i b bidx _
    left
    exact ⟨rfl, fun q hq => absurd hq (List.not_mem_nil q)⟩
  | cons q rest ih =>
    intro i b bidx h
    have hc : ¬(q.rect.containsPoint ⟨x, y⟩ = true) := h q (List.mem_cons_self q rest)
    have hcf : q.rect.containsPoint ⟨x, y⟩ = false := by simpa using hc
    have hrest : ∀ q2 ∈ rest, ¬(q2.rect.containsPoint ⟨x, y⟩ = true) :=
      fun q2 hq2 => h q2 (List.mem_cons_of_mem _ hq2)
    by_cases hb : q.centerDist x y < b
    · have hstep : findClosestAux x y (q :: rest) i (some b) bidx
          = findClosestAux x y rest (i + 1) (some (q.centerDist x y)) (i : Int) := by
        simp [findClosestAux, hcf, betterDist, hb]
      rcases ih (i + 1) (q.centerDist x y) (i : Int) hrest with ⟨heq, hall⟩ | ⟨k, hk, hklt, hkmin⟩
      · right
        refine ⟨⟨0, Nat.succ_pos _⟩, ?_, ?_, ?_⟩
        · rw [hstep, heq]; simp
        · simpa using hb
        · intro q2 hq2
          rcases List.mem_cons.mp hq2 with h2 | h2
          · simp [h2]
          · simpa using hall q2 h2
      · right
        refine ⟨⟨k.val + 1, Nat.succ_lt_succ k.isLt⟩, ?_, ?_, ?_⟩
        · rw [hstep, hk]; push_cast; ring
        · simpa using lt_trans hklt hb
        · intro q2 hq2
          rcases List.mem_cons.mp hq2 with h2 | h2
          · simpa [h2] using le_of_lt hklt
          · simpa using hkmin q2 h2
    · have hstep : findClosestAux x y (q :: rest) i (some b) bidx
          = findClosestAux x y rest (i + 1) (some b) bidx := by
        simp [findClosestAux, hcf, betterDist, hb]
      rcases ih (i + 1) b bidx hrest with ⟨heq, hall⟩ | ⟨k, hk, hklt, hkmin⟩
      · left
        refine ⟨by rw [hstep, heq], ?_⟩
        intro q2 hq2
        rcases List.mem_cons.mp hq2 with h2 | h2
        · exact h2 ▸ not_lt.mp hb
        · exact hall q2 h2
      · right
        refine ⟨⟨k.val + 1, Nat.succ_lt_succ k.isLt⟩, ?_, ?_, ?_⟩
        · rw [hstep, hk]; push_cast; ring
        · simpa using hklt
        · intro q2 hq2
          rcases List.mem_cons.mp hq2 with h2 | h2
          · have : (rest.get k).centerDist x y ≤ b := le_of_lt hklt
            simpa [h2] using le_trans this (not_lt.mp hb)
          · simpa using hkmin q2 h2

/-- C1: for every quad list and query point `(x, y)` in page-local units,
`find_closest_quad_index` returns `-1` if and only if the quad list is
empty; on a non-empty list it returns a valid index `j` such that: if at
least one quad's bounding rectangle contains the point then quad `j`
contains it, and otherwise quad `j` has minimal squared Euclidean
center-distance to the point. -/
theorem find_closest_quad_index_spec (quads : List Quad) (x y : ℚ) :
    (find_closest_quad_index quads x y = -1 ↔ quads = []) ∧
    (quads ≠ [] →
      ∃ j : Fin quads.length,
        find_closest_quad_index quads x y = (j.val : Int) ∧
        ((∃ i : Fin quads.length, (quads.get i).rect.containsPoint ⟨x, y⟩ = true) →
          (quads.get j).rect.containsPoint ⟨x, y⟩ = true) ∧
        ((∀ i : Fin quads.length, (quads.get i).rect.containsPoint ⟨x, y⟩ = false) →
          ∀ i : Fin quads.length,
            (quads.get j).centerDist x y ≤ (quads.get i).centerDist x y)) := by
  cases quads with
  | nil =>
    refine ⟨by simp [find_closest_quad_index], fun h => absurd rfl h⟩
  | cons q rest =>
    have hunfold : find_closest_quad_index (q :: rest) x y
        = findClosestAux x y (q :: rest) 0 none (-1) := by
      simp [find_closest_quad_index]
    have hmain : ∃ j : Fin (q :: rest).length,
        find_closest_quad_index (q :: rest) x y = (j.val : Int) ∧
        ((∃ i : Fin (q :: rest).length,
            ((q :: rest).get i).rect.containsPoint ⟨x, y⟩ = true) →
          ((q :: rest).get j).rect.containsPoint ⟨x, y⟩ = true) ∧
        ((∀ i : Fin (q :: rest).length,
            ((q :: rest).get i).rect.containsPoint ⟨x, y⟩ = false) →
          ∀ i : Fin (q :: rest).length,
            ((q :: rest).get j).centerDist x y ≤ ((q :: rest).get i).centerDist x y) := by
      by_cases hex : ∃ q0 ∈ q :: rest, q0.rect.containsPoint ⟨x, y⟩ = true
      · obtain ⟨k, hk, hkc⟩ := findClosestAux_of_contains x y (q :: rest) 0 none (-1) hex
        refine ⟨k, ?_, fun _ => hkc, ?_⟩
        · rw [hunfold, hk]; simp
        · intro hall
          have h1 := hall k
          rw [hkc] at h1
          exact Bool.noConfusion h1
      · have hnc : ∀ q0 ∈ q :: rest, ¬(q0.rect.containsPoint ⟨x, y⟩ = true) :=
          fun q0 hq0 hq0c => hex ⟨q0, hq0, hq0c⟩
        have hqf : q.rect.containsPoint ⟨x, y⟩ = false := by
          simpa using hnc q (List.mem_cons_self q rest)
        have hstep : findClosestAux x y (q :: rest) 0 none (-1)
            = findClosestAux x y rest 1 (some (q.centerDist x y)) 0 := by
          simp [findClosestAux, hqf, betterDist]
        have hrest : ∀ q2 ∈ rest, ¬(q2.rect.containsPoint ⟨x, y⟩ = true) :=
          fun q2 hq2 => hnc q2 (List.mem_cons_of_mem _ hq2)
        rcases findClosestAux_of_not_contains x y rest 1 (q.centerDist x y) 0 hrest with
          ⟨heq, hall⟩ | ⟨k, hk, hklt, hkmin⟩
        · refine ⟨⟨0, Nat.succ_pos _⟩, ?_, ?_, ?_⟩
          · rw [hunfold, hstep, heq]; simp
          · intro ⟨i, hic⟩
            exact absurd hic (hnc _ (List.get_mem _ _ _))
          · intro _ i
            rcases i with ⟨iv, hi⟩
            cases iv with
            | zero => simp
            | succ n =>
              have hn : n < rest.length := Nat.lt_of_succ_lt_succ hi
              have := hall (rest.get ⟨n, hn⟩) (List.get_mem _ _ _)
              simpa using this
        · refine ⟨⟨k.val + 1, Nat.succ_lt_succ k.isLt⟩, ?_, ?_, ?_⟩
          · rw [hunfold, hstep, hk]; push_cast; ring
          · intro ⟨i, hic⟩
            exact absurd hic (hnc _ (List.get_mem _ _ _))
          · intro _ i
            rcases i with ⟨iv, hi⟩
            cases iv with
            | zero => simpa using le_of_lt hklt
            | succ n =>
              have hn : n < rest.length := Nat.lt_of_succ_lt_succ hi
              have := hkmin (rest.get ⟨n, hn⟩) (List.get_mem _ _ _)
              simpa using this
    refine ⟨⟨fun hneg => ?_, fun hnil => absurd hnil (List.cons_ne_nil q rest)⟩,
      fun _ => hmain⟩
    obtain ⟨j, hj, -, -⟩ := hmain
    rw [hj] at hneg
    omega

/-- Witness for `find_closest_quad_index_spec` at the one-quad list and the
query point (5, 5). -/
theorem find_closest_quad_index_spec_witness :
    ∃ j : Fin ([quadW].length),
      find_closest_quad_index [quadW] 5 5 = (j.val : Int) ∧
      ((∃ i : Fin ([quadW].length), (([quadW]).get i).rect.containsPoint ⟨5, 5⟩ = true) →
        (([quadW]).get j).rect.containsPoint ⟨5, 5⟩ = true) ∧
      ((∀ i : Fin ([quadW].length), (([quadW]).get i).rect.containsPoint ⟨5, 5⟩ = false) →
        ∀ i : Fin ([quadW].length),
          (([quadW]).get j).centerDist 5 5 ≤ (([quadW]).get i).centerDist 5 5) :=
  (find_closest_quad_index_spec [quadW] 5 5).2 (List.cons_ne_nil _ _)

/-- One zoom step always lands inside [0.2, 5.0]. -/
theorem zoom_view_mem (s c : ℚ) : 0.2 ≤ zoom_view s c ∧ zoom_view s c ≤ 5.0 := by
  simp only [zoom_view]
  split_ifs with h1 h2 h3 <;> constructor <;> norm_num at * <;> linarith

/-- Iterating zoom steps from a value in [0.2, 5.0] stays in [0.2, 5.0]. -/
theorem zoom_view_foldl_mem (steps : List ℚ) :
    ∀ s : ℚ, 0.2 ≤ s ∧ s ≤ 5.0 →
      0.2 ≤ steps.foldl zoom_view s ∧ steps.foldl zoom_view s ≤ 5.0 := by
  induction steps with
  | nil => intro s hs; simpa using hs
  | cons c rest ih => intro s _; exact ih (zoom_view s c) (zoom_view_mem s c)

/-- C3 counterexample: `fit_width` does not clamp. With a 1030-unit-wide
view and a 100-unit-wide first page, Fit sets the scale to 10, outside
[0.2, 5.0] — so not every scale-setting operation leaves the scale in
[0.2, 5.0]. -/
theorem fit_width_escapes_clamp : ¬(fit_width 1 1030 100 ≤ 5.0) := by
  norm_num [fit_width]

/-- C3 (amended): starting anywhere, every zoom step leaves the scale
clamped to [0.2, 5.0]; `fit_width`, by contrast, sets the scale to
`(view_width - 30) / page_width` with no clamping whenever the first page's
width is positive. -/
theorem scale_ops_spec (s c vw pw : ℚ) (hpw : 0 < pw) :
    (0.2 ≤ zoom_view s c ∧ zoom_view s c ≤ 5.0) ∧
    fit_width s vw pw = (vw - 30) / pw :=
  ⟨zoom_view_mem s c, by simp [fit_width, hpw]⟩

/-- Witness for `scale_ops_spec` at scale 1, step +0.2, view width 1030,
page width 100. -/
theorem scale_ops_spec_witness :
    ((0.2 : ℚ) ≤ zoom_view 1 0.2 ∧ zoom_view 1 0.2 ≤ 5.0) ∧
    fit_width 1 1030 100 = (1030 - 30) / 100 :=
  scale_ops_spec 1 0.2 1030 100 (by norm_num)

/-- C4: from any starting scale in [0.2, 5.0] and any finite sequence of
zoom-in (+0.2) and zoom-out (-0.2) steps, the scale after each step lies in
[0.2, 5.0]; and 24 zoom-in steps from 0.2 end at exactly 5.0. -/
theorem zoom_steps_stay_clamped (start : ℚ) (hlo : 0.2 ≤ start) (hhi : start ≤ 5.0)
    (steps : List ℚ) (hsteps : ∀ c ∈ steps, c = 0.2 ∨ c = -0.2) :
    (∀ n : Nat, n < steps.length →
      0.2 ≤ (steps.take (n + 1)).foldl zoom_view start ∧
      (steps.take (n + 1)).foldl zoom_view start ≤ 5.0) ∧
    (List.replicate 24 (0.2 : ℚ)).foldl zoom_view 0.2 = 5.0 := by
  refine ⟨fun n _ => zoom_view_foldl_mem _ start ⟨hlo, hhi⟩, ?_⟩
  norm_num [List.replicate, zoom_view]

/-- Witness for `zoom_steps_stay_clamped`: start at scale 1 with one step in
each direction. -/
theorem zoom_steps_stay_clamped_witness :
    (∀ n : Nat, n < ([(0.2 : ℚ), -0.2]).length →
      0.2 ≤ (([(0.2 : ℚ), -0.2]).take (n + 1)).foldl zoom_view 1 ∧
      (([(0.2 : ℚ), -0.2]).take (n + 1)).foldl zoom_view 1 ≤ 5.0) ∧
    (List.replicate 24 (0.2 : ℚ)).foldl zoom_view 0.2 = 5.0 :=
  zoom_steps_stay_clamped 1 (by norm_num) (by norm_num) [0.2, -0.2] (by
    intro c hc
    rcases List.mem_cons.mp hc with rfl | hc2
    · exact Or.inl rfl
    rcases List.mem_cons.mp hc2 with rfl | hc3
    · exact Or.inr rfl
    · exact absurd hc3 (List.not_mem_nil c))

/-- C5 (amended): `check_current_page` reports the first page whose vertical
span contains the viewport center, formatted `"index + 1 / total"`, and
reports nothing at all when no page straddles the center; so at most one —
not always exactly one — page is reported. -/
theorem check_current_page_spec (items : List Rect) (total : Nat) (c : ℚ) :
    check_current_page items total c =
      (List.findIdx? (fun r => decide (r.y0 ≤ c) && decide (c ≤ r.y1)) items).map
        (fun i => toString (i + 1) ++ " / " ++ toString total) := by
  have main : ∀ (l : List Rect) (i : Nat),
      check_current_page_from total c l i =
        (List.findIdx? (fun r => decide (r.y0 ≤ c) && decide (c ≤ r.y1)) l i).map
          (fun k => toString (k + 1) ++ " / " ++ toString total) := by
    intro l
    induction l with
    | nil => intro i; rfl
    | cons r rest ih =>
      intro i
      rw [List.findIdx?_cons]
      by_cases h : r.y0 ≤ c ∧ c ≤ r.y1
      · have hb : (decide (r.y0 ≤ c) && decide (c ≤ r.y1)) = true := by
          simp [h.1, h.2]
        simp [check_current_page_from, h, hb]
      · have hb : (decide (r.y0 ≤ c) && decide (c ≤ r.y1)) = false := by
          rcases not_and_or.mp h with h1 | h1 <;> simp [h1]
        simp [check_current_page_from, h, hb, ih]
  exact main items 0

/-- C5 counterexample: in the code's own single-mode layout the two pages
span y ∈ [0, 100] and y ∈ [120, 220]; with the viewport center at
y = 110 — inside the 20-unit padding gap — `check_current_page` reports no
page at all, contradicting "exactly one page is reported as current" at
every scroll position. -/
theorem check_current_page_gap_counterexample :
    check_current_page (itemRects sizesC5 (render_pages_single 800 sizesC5 0)) 2 110
      = none := by
  norm_num [check_current_page, check_current_page_from, itemRects, render_pages_single,
    sizesC5]

/-- Pair-stepping induction on size lists, matching the dual-layout
recursion. -/
theorem two_step_induction {P : List (ℚ × ℚ) → Prop} (h0 : P []) (h1 : ∀ a, P [a])
    (h2 : ∀ a b rest, P rest → P (a :: b :: rest)) : ∀ l, P l
  | [] => h0
  | [a] => h1 a
  | a :: b :: rest => h2 a b rest (two_step_induction h0 h1 h2 rest)

/-- Dual layout places every page: one position per size. -/
theorem render_pages_dual_length (l : List (ℚ × ℚ)) :
    ∀ y : ℚ, (render_pages_dual l y).length = l.length := by
  induction l using two_step_induction with
  | h0 => intro y; rfl
  | h1 a => intro y; rfl
  | h2 a b rest ih =>
    intro y
    have : render_pages_dual (a :: b :: rest) y
        = ⟨0, y⟩ :: ⟨a.1 + 20, y⟩ :: render_pages_dual rest (y + max b.2 a.2 + 20) := rfl
    rw [this]
    simp [ih]

/-- The first laid-out position starts at the running `y_offset`. -/
theorem render_pages_dual_head_y (l : List (ℚ × ℚ)) (hl : l ≠ []) (y : ℚ) :
    ((render_pages_dual l y).getD 0 ⟨0, 0⟩).y = y := by
  cases l with
  | nil => exact absurd rfl hl
  | cons a rest =>
    cases rest with
    | nil => rfl
    | cons b rest2 => rfl

/-- Changing the starting `y_offset` translates every laid-out position
vertically and leaves x-coordinates unchanged. -/
theorem render_pages_dual_shift (l : List (ℚ × ℚ)) :
    ∀ (y : ℚ) (i : Nat), i < l.length →
      (render_pages_dual l y).getD i ⟨0, 0⟩ =
        ⟨((render_pages_dual l 0).getD i ⟨0, 0⟩).x,
          ((render_pages_dual l 0).getD i ⟨0, 0⟩).y + y⟩ := by
  induction l using two_step_induction with
  | h0 => intro y i hi; simp at hi
  | h1 a =>
    intro y i hi
    have h0 : i = 0 := by simp at hi; omega
    subst h0
    show (⟨0, y⟩ : Point) = ⟨(⟨0, (0 : ℚ)⟩ : Point).x, (⟨0, (0 : ℚ)⟩ : Point).y + y⟩
    simp
  | h2 a b rest ih =>
    intro y i hi
    have hexp : ∀ Y : ℚ, render_pages_dual (a :: b :: rest) Y
        = ⟨0, Y⟩ :: ⟨a.1 + 20, Y⟩ :: render_pages_dual rest (Y + max b.2 a.2 + 20) :=
      fun Y => rfl
    cases i with
    | zero => rw [hexp, hexp]; simp
    | succ i1 =>
      cases i1 with
      | zero => rw [hexp, hexp]; simp
      | succ j =>
        have hj : j < rest.length := by
          simp only [List.length_cons] at hi; omega
        rw [hexp, hexp]
        simp only [List.getD_cons_succ]
        rw [ih (y + max b.2 a.2 + 20) j hj, ih (0 + max b.2 a.2 + 20) j hj]
        simp only [Point.mk.injEq]
        exact ⟨by trivial, by ring⟩

/-- Every even-indexed page starts its row at x = 0 in dual layout. -/
theorem render_pages_dual_even_x (l : List (ℚ × ℚ)) :
    ∀ (y : ℚ) (k : Nat), 2 * k < l.length →
      ((render_pages_dual l y).getD (2 * k) ⟨0, 0⟩).x = 0 := by
  induction l using two_step_induction with
  | h0 => intro y k hk; simp at hk
  | h1 a =>
    intro y k hk
    have h0 : k = 0 := by simp at hk; omega
    subst h0
    rfl
  | h2 a b rest ih =>
    intro y k hk
    have hexp : render_pages_dual (a :: b :: rest) y
        = ⟨0, y⟩ :: ⟨a.1 + 20, y⟩ :: render_pages_dual rest (y + max b.2 a.2 + 20) := rfl
    cases k with
    | zero => rw [hexp]; rfl
    | succ k1 =>
      have he : 2 * Nat.succ k1 = 2 * k1 + 1 + 1 := by omega
      have hj : 2 * k1 < rest.length := by
        simp only [List.length_cons] at hk; omega
      rw [he, hexp]
      simp only [List.getD_cons_succ]
      exact ih (y + max b.2 a.2 + 20) k1 hj

/-- Every odd-indexed page is placed immediately to the right of its even
partner (at that page's width plus the 20-unit padding) and on the same
row (same y-offset). -/
theorem render_pages_dual_odd (l : List (ℚ × ℚ)) :
    ∀ (y : ℚ) (k : Nat), 2 * k + 1 < l.length →
      ((render_pages_dual l y).getD (2 * k + 1) ⟨0, 0⟩).x
          = (l.getD (2 * k) (0, 0)).1 + 20 ∧
      ((render_pages_dual l y).getD (2 * k + 1) ⟨0, 0⟩).y
          = ((render_pages_dual l y).getD (2 * k) ⟨0, 0⟩).y := by
  induction l using two_step_induction with
  | h0 => intro y k hk; simp at hk
  | h1 a => intro y k hk; simp at hk
  | h2 a b rest ih =>
    intro y k hk
    have hexp : render_pages_dual (a :: b :: rest) y
        = ⟨0, y⟩ :: ⟨a.1 + 20, y⟩ :: render_pages_dual rest (y + max b.2 a.2 + 20) := rfl
    cases k with
    | zero => rw [hexp]; exact ⟨rfl, rfl⟩
    | succ k1 =>
      have he : 2 * Nat.succ k1 + 1 = (2 * k1 + 1) + 1 + 1 := by omega
      have he2 : 2 * Nat.succ k1 = 2 * k1 + 1 + 1 := by omega
      have hj : 2 * k1 + 1 < rest.length := by
        simp only [List.length_cons] at hk; omega
      constructor
      · rw [he, hexp]
        simp only [List.getD_cons_succ]
        have := (ih (y + max b.2 a.2 + 20) k1 hj).1
        rw [this]
        rfl
      · rw [he, he2, hexp]
        simp only [List.getD_cons_succ]
        exact (ih (y + max b.2 a.2 + 20) k1 hj).2

/-- Row advance: the row after pair k starts `max(h_odd, h_even) + 20`
below pair k's row. -/
theorem render_pages_dual_row_advance (l : List (ℚ × ℚ)) :
    ∀ (y : ℚ) (k : Nat), 2 * k + 2 < l.length →
      ((render_pages_dual l y).getD (2 * k + 2) ⟨0, 0⟩).y
        = ((render_pages_dual l y).getD (2 * k) ⟨0, 0⟩).y
          + max (l.getD (2 * k + 1) (0, 0)).2 (l.getD (2 * k) (0, 0)).2 + 20 := by
  induction l using two_step_induction with
  | h0 => intro y k hk; simp at hk
  | h1 a => intro y k hk; simp at hk
  | h2 a b rest ih =>
    intro y k hk
    have hexp : render_pages_dual (a :: b :: rest) y
        = ⟨0, y⟩ :: ⟨a.1 + 20, y⟩ :: render_pages_dual rest (y + max b.2 a.2 + 20) := rfl
    cases k with
    | zero =>
      have hrest : rest ≠ [] := by
        simp only [List.length_cons] at hk
        intro hnil
        rw [hnil] at hk
        simp at hk
      have e2 : 2 * 0 + 2 = 0 + 1 + 1 := by omega
      have e1 : 2 * 0 + 1 = 0 + 1 := by omega
      have e0 : 2 * 0 = 0 := by omega
      rw [e2, e1, e0, hexp]
      simp only [List.getD_cons_succ, List.getD_cons_zero]
      rw [render_pages_dual_head_y rest hrest]
    | succ k1 =>
      have he : 2 * Nat.succ k1 + 2 = (2 * k1 + 2) + 1 + 1 := by omega
      have he2 : 2 * Nat.succ k1 = 2 * k1 + 1 + 1 := by omega
      have he3 : 2 * Nat.succ k1 + 1 = (2 * k1 + 1) + 1 + 1 := by omega
      have hj : 2 * k1 + 2 < rest.length := by
        simp only [List.length_cons] at hk; omega
      rw [he, he3, he2, hexp]
      simp only [List.getD_cons_succ]
      exact ih (y + max b.2 a.2 + 20) k1 hj

/-- Distinct rows: with non-negative page heights, each pair's row lies
strictly above the next pair's row, so N pages form exactly ⌈N/2⌉ rows. -/
theorem render_pages_dual_row_mono (l : List (ℚ × ℚ)) (hpos : ∀ s ∈ l, 0 ≤ s.2)
    (y : ℚ) (k : Nat) (hk : 2 * k + 2 < l.length) :
    ((render_pages_dual l y).getD (2 * k) ⟨0, 0⟩).y
      < ((render_pages_dual l y).getD (2 * k + 2) ⟨0, 0⟩).y := by
  rw [render_pages_dual_row_advance l y k hk]
  have hlt : 2 * k < l.length := by omega
  have h1 : 0 ≤ (l.getD (2 * k) (0, 0)).2 := by
    rw [List.getD_eq_getElem l (0, 0) hlt]
    exact hpos _ (List.getElem_mem hlt)
  have h2 : 0 ≤ max (l.getD (2 * k + 1) (0, 0)).2 (l.getD (2 * k) (0, 0)).2 :=
    le_max_of_le_right h1
  linarith

/-- C6: for every list of laid-out page sizes in dual view mode — every page
gets a position; every even-indexed page starts its row at x = 0 (for odd N
this covers the single final page); every odd-indexed page sits to the
right of its even partner at that page's width plus the 20-unit padding, on
the same row; the next row's y-offset advances by the maximum of the two
pages' heights plus the padding; and (for non-negative heights) consecutive
rows are strictly descending on the canvas, so N pages form exactly
⌈N / 2⌉ rows — N/2 for even N, with the final odd page alone on the last
row. -/
theorem render_pages_dual_spec (sizes : List (ℚ × ℚ)) :
    ((render_pages_dual sizes 0).length = sizes.length) ∧
    (∀ k, 2 * k < sizes.length →
      ((render_pages_dual sizes 0).getD (2 * k) ⟨0, 0⟩).x = 0) ∧
    (∀ k, 2 * k + 1 < sizes.length →
      ((render_pages_dual sizes 0).getD (2 * k + 1) ⟨0, 0⟩).x
          = (sizes.getD (2 * k) (0, 0)).1 + 20 ∧
      ((render_pages_dual sizes 0).getD (2 * k + 1) ⟨0, 0⟩).y
          = ((render_pages_dual sizes 0).getD (2 * k) ⟨0, 0⟩).y) ∧
    (∀ k, 2 * k + 2 < sizes.length →
      ((render_pages_dual sizes 0).getD (2 * k + 2) ⟨0, 0⟩).y
        = ((render_pages_dual sizes 0).getD (2 * k) ⟨0, 0⟩).y
          + max (sizes.getD (2 * k + 1) (0, 0)).2 (sizes.getD (2 * k) (0, 0)).2 + 20) ∧
    ((∀ s ∈ sizes, 0 ≤ s.2) → ∀ k, 2 * k + 2 < sizes.length →
      ((render_pages_dual sizes 0).getD (2 * k) ⟨0, 0⟩).y
        < ((render_pages_dual sizes 0).getD (2 * k + 2) ⟨0, 0⟩).y) :=
  ⟨render_pages_dual_length sizes 0,
   fun k => render_pages_dual_even_x sizes 0 k,
   fun k => render_pages_dual_odd sizes 0 k,
   fun k => render_pages_dual_row_advance sizes 0 k,
   fun hpos k hk => render_pages_dual_row_mono sizes hpos 0 k hk⟩

/-- Witness for `render_pages_dual_spec` on a concrete three-page document:
pages 0 and 1 share row 0, page 2 starts row 1 alone at x = 0. -/
theorem render_pages_dual_spec_witness :
    ((render_pages_dual sizesW 0).length = sizesW.length) ∧
    ((render_pages_dual sizesW 0).getD (2 * 1) ⟨0, 0⟩).x = 0 ∧
    (((render_pages_dual sizesW 0).getD (2 * 0 + 1) ⟨0, 0⟩).x
        = (sizesW.getD (2 * 0) (0, 0)).1 + 20 ∧
      ((render_pages_dual sizesW 0).getD (2 * 0 + 1) ⟨0, 0⟩).y
        = ((render_pages_dual sizesW 0).getD (2 * 0) ⟨0, 0⟩).y) ∧
    (((render_pages_dual sizesW 0).getD (2 * 0 + 2) ⟨0, 0⟩).y
        = ((render_pages_dual sizesW 0).getD (2 * 0) ⟨0, 0⟩).y
          + max (sizesW.getD (2 * 0 + 1) (0, 0)).2 (sizesW.getD (2 * 0) (0, 0)).2 + 20) ∧
    (((render_pages_dual sizesW 0).getD (2 * 0) ⟨0, 0⟩).y
        < ((render_pages_dual sizesW 0).getD (2 * 0 + 2) ⟨0, 0⟩).y) := by
  have h := render_pages_dual_spec sizesW
  refine ⟨h.1, h.2.1 1 (by norm_num [sizesW]), h.2.2.1 0 (by norm_num [sizesW]),
    h.2.2.2.1 0 (by norm_num [sizesW]), h.2.2.2.2 ?_ 0 (by norm_num [sizesW])⟩
  intro s hs
  simp only [sizesW, List.mem_cons, List.not_mem_nil, or_false] at hs
  rcases hs with rfl | rfl | rfl <;> norm_num

/-- With no hit anywhere, the annotation walk removes nothing. -/
theorem process_eraser_scan_no_hit (p : Point) (annots : List Annot)
    (h : ∀ a ∈ annots, eraserHit p a = false) : process_eraser_scan annots p = annots := by
  induction annots with
  | nil => rfl
  | cons a rest ih =>
    have ha : eraserHit p a = false := h a (List.mem_cons_self a rest)
    simp only [process_eraser_scan, ha, Bool.false_eq_true, if_false]
    rw [ih fun b hb => h b (List.mem_cons_of_mem _ hb)]

/-- Decomposition: the walk removes exactly the first hit annotation. -/
theorem process_eraser_scan_first_hit (p : Point) :
    ∀ (pre : List Annot) (a : Annot) (suf : List Annot),
      (∀ b ∈ pre, eraserHit p b = false) → eraserHit p a = true →
      process_eraser_scan (pre ++ a :: suf) p = pre ++ suf := by
  intro pre
  induction pre with
  | nil =>
    intro a suf _ ha
    simp [process_eraser_scan, ha]
  | cons b pre2 ih =>
    intro a suf hpre ha
    have hb : eraserHit p b = false := hpre b (List.mem_cons_self b pre2)
    simp only [List.cons_append, process_eraser_scan, hb, Bool.false_eq_true, if_false,
      List.append_eq]
    rw [ih a suf (fun c hc => hpre c (List.mem_cons_of_mem _ hc)) ha]

/-- When exactly one annotation is hit, erasing twice equals erasing once. -/
theorem process_eraser_scan_twice (p : Point) :
    ∀ annots : List Annot, annots.countP (eraserHit p) = 1 →
      process_eraser_scan (process_eraser_scan annots p) p
        = process_eraser_scan annots p := by
  intro annots
  induction annots with
  | nil => intro h; simp [List.countP_nil] at h
  | cons a rest ih =>
    intro h
    by_cases ha : eraserHit p a = true
    · have hrest : rest.countP (eraserHit p) = 0 := by
        rw [List.countP_cons_of_pos (eraserHit p) rest ha] at h
        omega
      have hnone : ∀ b ∈ rest, eraserHit p b = false := by
        intro b hb
        have := (List.countP_eq_zero.mp hrest) b hb
        simpa using this
      simp only [process_eraser_scan, ha, if_true]
      exact process_eraser_scan_no_hit p rest hnone
    · have haf : eraserHit p a = false := by simpa using ha
      have hrest : rest.countP (eraserHit p) = 1 := by
        rwa [List.countP_cons_of_neg (eraserHit p) rest (by simp [haf])] at h
      simp only [process_eraser_scan, haf, Bool.false_eq_true, if_false]
      rw [ih hrest]

/-- Page isolation of the eraser: only the first page containing the press
point has its annotation list rewritten by the walk. -/
theorem process_eraser_first_page (sp : Point) (scale : ℚ) :
    ∀ (pre : List EraserPage) (pg : EraserPage) (suf : List EraserPage),
      (∀ b ∈ pre, b.sceneRect.containsPoint sp = false) →
      pg.sceneRect.containsPoint sp = true →
      process_eraser (pre ++ pg :: suf) sp scale = pre ++
        { pg with annots := process_eraser_scan pg.annots (eraserLocalPoint sp pg scale) } ::
          suf := by
  intro pre
  induction pre with
  | nil =>
    intro pg suf _ hpg
    simp [process_eraser, hpg]
  | cons b pre2 ih =>
    intro pg suf hpre hpg
    have hb : b.sceneRect.containsPoint sp = false := hpre b (List.mem_cons_self b pre2)
    simp only [List.cons_append, process_eraser, hb, Bool.false_eq_true, if_false,
      List.append_eq]
    rw [ih pg suf (fun c hc => hpre c (List.mem_cons_of_mem _ hc)) hpg]

/-- C7: the eraser removes exactly the first annotation (in insertion order)
whose rectangle contains the page-local press point and whose kind is
highlight, and no further one; when nothing is hit it removes nothing; when
exactly one annotation is hit, a second erase at the same point is a no-op;
and at page level only the first page containing the press point has its
annotation list rewritten by the walk, every other page being untouched. -/
theorem process_eraser_spec (annots : List Annot) (p : Point) :
    ((∀ a ∈ annots, eraserHit p a = false) → process_eraser_scan annots p = annots) ∧
    (∀ pre a suf, annots = pre ++ a :: suf →
      (∀ b ∈ pre, eraserHit p b = false) → eraserHit p a = true →
      process_eraser_scan annots p = pre ++ suf) ∧
    (annots.countP (eraserHit p) = 1 →
      process_eraser_scan (process_eraser_scan annots p) p
        = process_eraser_scan annots p) ∧
    (∀ (pages : List EraserPage) (sp : Point) (scale : ℚ) (pre : List EraserPage)
        (pg : EraserPage) (suf : List EraserPage), pages = pre ++ pg :: suf →
      (∀ b ∈ pre, b.sceneRect.containsPoint sp = false) →
      pg.sceneRect.containsPoint sp = true →
      process_eraser pages sp scale = pre ++
        { pg with annots := process_eraser_scan pg.annots (eraserLocalPoint sp pg scale) } ::
          suf) := by
  refine ⟨process_eraser_scan_no_hit p annots, ?_, process_eraser_scan_twice p annots, ?_⟩
  · intro pre a suf heq hpre ha
    rw [heq]
    exact process_eraser_scan_first_hit p pre a suf hpre ha
  · intro pages sp scale pre pg suf heq hpre hpg
    rw [heq]
    exact process_eraser_first_page sp scale pre pg suf hpre hpg

/-- Witness for `process_eraser_spec`: pressing at (10, 10) erases exactly
the highlight `annotW` (skipping the earlier non-hit `annotW2`), and a
second erase at the same point removes nothing. -/
theorem process_eraser_spec_witness :
    process_eraser_scan [annotW2, annotW] ⟨10, 10⟩ = [annotW2] ++ [] ∧
    process_eraser_scan (process_eraser_scan [annotW2, annotW] ⟨10, 10⟩) ⟨10, 10⟩
      = process_eraser_scan [annotW2, annotW] ⟨10, 10⟩ := by
  have h := process_eraser_spec [annotW2, annotW] ⟨10, 10⟩
  have hmiss : eraserHit ⟨10, 10⟩ annotW2 = false := by
    norm_num [eraserHit, Rect.containsPoint, annotW2]
  have hhit : eraserHit ⟨10, 10⟩ annotW = true := by
    norm_num [eraserHit, Rect.containsPoint, annotW]
  refine ⟨h.2.1 [annotW2] annotW [] rfl ?_ hhit, h.2.2.1 ?_⟩
  · intro b hb
    simp only [List.mem_cons, List.not_mem_nil, or_false] at hb
    subst hb
    exact hmiss
  · rw [List.countP_cons_of_neg (eraserHit ⟨10, 10⟩) [annotW] (by simp [hmiss]),
      List.countP_cons_of_pos (eraserHit ⟨10, 10⟩) [] hhit, List.countP_nil]

/-- The accumulation loop concatenates the per-element texts in index
order. -/
theorem copy_quad_texts_eq_foldr (getText : Rect → Option String) (sel : List SelItem) :
    copy_quad_texts getText sel = (sel.map (selItemText getText)).foldr (· ++ ·) "" := by
  induction sel with
  | nil => rfl
  | cons it rest ih =>
    cases it with
    | quad q => simp [copy_quad_texts, selItemText, ih]
    | rect r => simp [copy_quad_texts, selItemText, ih]

/-- C8 (amended): with a non-empty quad selection and an active start page,
copy writes the concatenation, in index order, of each selected quad's
engine-extracted text, stripped of surrounding whitespace; with an empty
selection nothing at all is written to the clipboard. -/
theorem copy_selection_spec (getText : Rect → Option String)
    (sel : List SelItem) (q : Quad) (rest : List SelItem)
    (hsel : sel = .quad q :: rest) :
    copy_selection sel true getText
      = some (pyStrip ((sel.map (selItemText getText)).foldr (· ++ ·) "")) ∧
    copy_selection [] true getText = none := by
  subst hsel
  exact ⟨by rw [← copy_quad_texts_eq_foldr]; rfl, rfl⟩

/-- Witness for `copy_selection_spec` on a one-quad selection whose text is
`" ab "`. -/
theorem copy_selection_spec_witness :
    copy_selection [SelItem.quad quadW] true (fun _ => some " ab ")
      = some (pyStrip ((([SelItem.quad quadW]).map
          (selItemText (fun _ => some " ab "))).foldr (· ++ ·) "")) ∧
    copy_selection [] true (fun _ => some " ab ") = none :=
  copy_selection_spec (fun _ => some " ab ") [SelItem.quad quadW] quadW [] rfl

/-- C8 counterexample: with an empty selection (no resolvable quads) the
copy operation writes nothing at all — the clipboard is left untouched —
rather than yielding the empty string. -/
theorem copy_selection_empty_counterexample :
    copy_selection [] true (fun _ => some "sample") ≠ some "" := by
  simp [copy_selection]

/-- C9: an engine exception while rendering a page is absorbed, leaving that
page's bitmap unchanged; an engine result with no pixel data is a non-fatal
no-op; and in the render loop each page's resulting bitmap is
`update_render` of its own prior bitmap and its own engine outcome, so a
failure on one page cannot affect the rendering of any other page. -/
theorem update_render_spec (dpr : ℚ) :
    (∀ (prior : Option Bitmap) (e : String), update_render prior dpr (.error e) = prior) ∧
    (∀ (prior : Option Bitmap) (px : Pixmap), px.samples.isEmpty = true →
      update_render prior dpr (.ok px) = prior) ∧
    (∀ (pages : List (Option Bitmap × Except String Pixmap)) (i : Nat),
      i < pages.length →
      (render_all dpr pages).getD i none =
        update_render (pages.getD i (none, .error "")).1 dpr
          (pages.getD i (none, .error "")).2) := by
  refine ⟨fun prior e => rfl, fun prior px h => by simp [update_render, h], ?_⟩
  intro pages i hi
  have hlen : i < (render_all dpr pages).length := by
    simpa [render_all] using hi
  rw [List.getD_eq_getElem _ _ hlen, List.getD_eq_getElem _ _ hi]
  simp [render_all]

/-- Witness for `update_render_spec`: a raised engine exception and an
empty-samples pixmap both leave the prior bitmap, also through the loop. -/
theorem update_render_spec_witness :
    update_render (some bmpW) 2 (.error "boom") = some bmpW ∧
    update_render (some bmpW) 2 (.ok ⟨4, 4, 12, false, []⟩) = some bmpW ∧
    (render_all 2 pagesW).getD 0 none =
      update_render (pagesW.getD 0 (none, .error "")).1 2
        (pagesW.getD 0 (none, .error "")).2 := by
  have h := update_render_spec 2
  exact ⟨h.1 (some bmpW) "boom", h.2.1 (some bmpW) ⟨4, 4, 12, false, []⟩ rfl,
    h.2.2 pagesW 0 (by norm_num [pagesW])⟩

/-- C10: the in-place incremental save is attempted exactly when
`current_path` holds a non-empty path naming an existing regular file; in
every other case — path unset or not an existing file — the operation is
redirected to Save-Copy, and those are the only two outcomes. -/
theorem save_overwrite_spec (cp : Option String) (isfile : String → Bool) :
    (save_overwrite cp isfile = .saveIncr ↔
      ∃ p, cp = some p ∧ p ≠ "" ∧ isfile p = true) ∧
    (save_overwrite cp isfile = .saveAs ∨ save_overwrite cp isfile = .saveIncr) := by
  constructor
  · constructor
    · intro h
      match cp with
      | none => simp [save_overwrite] at h
      | some p =>
        by_cases hp : p = ""
        · simp [save_overwrite, hp] at h
        · by_cases hf : isfile p = true
          · exact ⟨p, rfl, hp, hf⟩
          · simp [save_overwrite, hp, hf] at h
    · rintro ⟨p, rfl, hp, hf⟩
      simp [save_overwrite, hp, hf]
  · match cp with
    | none => exact Or.inl rfl
    | some p =>
      by_cases hp : p = ""
      · exact Or.inl (by simp [save_overwrite, hp])
      · by_cases hf : isfile p = true
        · exact Or.inr (by simp [save_overwrite, hp, hf])
        · exact Or.inl (by simp [save_overwrite, hp, hf])

/-- C2 counterexample: in Highlight mode, pressing at (10, 10) and releasing
after a one-unit pointer move — displacement 1 < 5 screen units — commits a
highlight annotation when the page resolves quads (linear sub-mode): the
5-unit threshold only guards the box sub-mode, so the claim fails as
stated. -/
theorem highlight_small_displacement_commits :
    ((11 - 10 : Int) ^ 2 + (10 - 10 : Int) ^ 2 < 5 ^ 2) ∧
    (runHighlightGesture envC2 (10, 10) [(11, 10)] (initState 1)).pageAnnots
      ≠ (initState 1).pageAnnots := by
  have hfinal : (runHighlightGesture envC2 (10, 10) [(11, 10)] (initState 1)).pageAnnots
      = [[⟨quadC2.rect, 8⟩]] := by
    norm_num [runHighlightGesture, handle_selection_press, handle_selection_move,
      handle_selection_release_highlight, highlight_selection, envC2, initState,
      findPageAt, findPageAtFrom, PageItem.sceneRect, pageItemD, pySlice, commitAnnot,
      quadsRect, find_closest_quad_index, findClosestAux, Rect.containsPoint, quadC2,
      Quad.rect, min_def, max_def]
  refine ⟨by norm_num, ?_⟩
  rw [hfinal]
  simp [initState]

/-- An integer with square below 25 lies in [-4, 4]. -/
theorem abs_le_four_of_sq (a : Int) (h : a ^ 2 < 25) : -4 ≤ a ∧ a ≤ 4 := by
  constructor <;> nlinarith

/-- If the pointer stays within Euclidean displacement < 5 of the origin,
the normalized rubber-band width stays ≤ 5. -/
theorem qrectNormWidth_le_five (o p : Int × Int)
    (h : (p.1 - o.1) ^ 2 + (p.2 - o.2) ^ 2 < 5 ^ 2) :
    qrectNormWidth o.1 p.1 ≤ 5 := by
  have hx : (p.1 - o.1) ^ 2 < 25 := by nlinarith [sq_nonneg (p.2 - o.2)]
  obtain ⟨h1, h2⟩ := abs_le_four_of_sq _ hx
  unfold qrectNormWidth
  split_ifs with hlt <;> omega

/-- C2 (amended): a Highlight-tool press - move* - release gesture starting
from an idle gesture state (no pending start page), on a document where the
engine resolves no quads for any page (box sub-mode), with every pointer
position within displacement < 5 screen units of the press point, commits
no annotation: the rubber band's normalized width never exceeds 5, the
`width > 5` threshold discards the selection, and the linear commit path is
unreachable. -/
theorem box_small_gesture_commits_nothing (env : GestureEnv) (s0 : TabState)
    (p0 : Int × Int) (moves : List (Int × Int))
    (hstart : s0.start_selection_page = none)
    (hnoquads : ∀ i, (env.getQuads i).getD [] = [])
    (hdisp : ∀ p ∈ moves, (p.1 - p0.1) ^ 2 + (p.2 - p0.2) ^ 2 < 5 ^ 2) :
    (runHighlightGesture env p0 moves s0).pageAnnots = s0.pageAnnots := by
  have hpress : BoxGestureInv s0 p0 (handle_selection_press env p0 s0) := by
    unfold BoxGestureInv handle_selection_press
    cases hfp : findPageAt env.pages (env.toScene p0) with
    | none =>
      simp only [hfp]
      norm_num [hstart]
    | some i =>
      cases hq : env.getQuads i with
      | none =>
        simp only [hfp, hq]
        norm_num
      | some qs =>
        have hqs : qs = [] := by
          have := hnoquads i
          rw [hq] at this
          simpa using this
        subst hqs
        simp only [hfp, hq, List.isEmpty_nil, if_true]
        norm_num
  have hmovepres : ∀ (s : TabState) (p : Int × Int), p ∈ moves →
      BoxGestureInv s0 p0 s → BoxGestureInv s0 p0 (handle_selection_move env s p) := by
    intro s p hp hPs
    unfold BoxGestureInv at hPs ⊢
    obtain ⟨hul, hsel, hann, hor, hsp⟩ := hPs
    unfold handle_selection_move
    cases hs : s.start_selection_page with
    | none => exact ⟨hul, hsel, hann, hor, Or.inl hs⟩
    | some i =>
      dsimp only
      by_cases ho : s.origin = (0, 0)
      · rw [if_pos ho]
        exact ⟨hul, hsel, hann, hor, hsp.imp_left (fun h => hs ▸ h) |>.imp_left
          (fun h => h)⟩
      · rw [if_neg ho]
        have hcond : ¬(s.use_linear_selection = true ∧
            ¬s.page_quads_cache.isEmpty = true) := by
          simp [hul]
        rw [if_neg hcond]
        refine ⟨hul, hsel, hann, hor, Or.inr ?_⟩
        show qrectNormWidth s.origin.1 p.1 ≤ 5
        rw [hor]
        exact qrectNormWidth_le_five p0 p (hdisp p hp)
  have hfold : ∀ (ms : List (Int × Int)), (∀ p ∈ ms, p ∈ moves) → ∀ s,
      BoxGestureInv s0 p0 s →
      BoxGestureInv s0 p0 (ms.foldl (handle_selection_move env) s) := by
    intro ms
    induction ms with
    | nil => intro _ s hs; exact hs
    | cons p rest ih =>
      intro hsub s hs
      exact ih (fun q hq => hsub q (List.mem_cons_of_mem _ hq)) _
        (hmovepres s p (hsub p (List.mem_cons_self _ _)) hs)
  have hrel : ∀ s, BoxGestureInv s0 p0 s →
      (handle_selection_release_highlight env s).pageAnnots = s0.pageAnnots := by
    intro s hs
    unfold BoxGestureInv at hs
    obtain ⟨hul, hsel, hann, hor, hsp⟩ := hs
    unfold handle_selection_release_highlight
    have hcond : ¬(s.use_linear_selection = true ∧ ¬s.selected_quads.isEmpty = true) := by
      simp [hul]
    rw [if_neg hcond]
    by_cases hw : s.rubberband.w > 5
    · rcases hsp with hnone | hle
      · rw [if_pos hw]
        unfold process_box_highlight
        rw [hnone]
        exact hann
      · omega
    · rw [if_neg hw]
      exact hann
  exact hrel _ (hfold moves (fun p hp => hp) _ hpress)

/-- Witness for `box_small_gesture_commits_nothing`: a fresh tab, press at
(10, 10), one move to (12, 11) (displacement² = 5 < 25), release: no
annotation committed. -/
theorem box_small_gesture_commits_nothing_witness :
    (runHighlightGesture envC2b (10, 10) [(12, 11)] (initState 1)).pageAnnots
      = (initState 1).pageAnnots :=
  box_small_gesture_commits_nothing envC2b (initState 1) (10, 10) [(12, 11)] rfl
    (fun _ => rfl)
    (by
      intro p hp
      rcases List.mem_cons.mp hp with rfl | h
      · norm_num
      · exact absurd h (List.not_mem_nil p))
